import Mathlib

/-!
Verification development for the retrieval subsystem of `backend/rag.py`
(class `RAGSystem`): content-addressed document identity, deduplicated
ingestion into an upsert-by-id vector index, query-time abbreviation
expansion, metadata filtering, distance normalization and content dedup.

Numbers: Python floats are modelled as rationals (`ℚ`); Python `round(x, n)`
is round-half-to-even at `n` decimal places, modelled by `roundTo`.
Strings are modelled by Lean `String`s; Python slicing/lower/upper are
modelled character-wise on `String.data`.
-/

set_option maxRecDepth 8000

namespace RAG

/-- Python `round` to an integer: round half to even (banker's rounding). -/
def roundHalfEven (x : ℚ) : ℤ :=
  if x - (⌊x⌋ : ℚ) < 1/2 then ⌊x⌋
  else if 1/2 < x - (⌊x⌋ : ℚ) then ⌊x⌋ + 1
  else if ⌊x⌋ % 2 = 0 then ⌊x⌋ else ⌊x⌋ + 1

/-- Python `round(x, n)`: round to `n` decimal places, half to even. -/
def roundTo (n : ℕ) (x : ℚ) : ℚ := (roundHalfEven (x * (10:ℚ)^n) : ℚ) / (10:ℚ)^n

/-- Python `s[:n]` (character-wise slice). -/
def strTake (s : String) (n : Nat) : String := ⟨s.data.take n⟩

/-- Python `s.lower()` (character-wise). -/
def strLower (s : String) : String := ⟨s.data.map Char.toLower⟩

/-- Python `s.upper()` (character-wise). -/
def strUpper (s : String) : String := ⟨s.data.map Char.toUpper⟩

/-- A Chroma metadata value: the source only stores strings and
(for `outcome_index`) natural numbers. -/
inductive MetaValue
  | s (v : String)
  | n (v : Nat)
deriving DecidableEq

/-- A metadata mapping, as the ordered key/value pairs of the Python dict. -/
abbrev Metadata := List (String × MetaValue)

/-- Python `metadata.get(key, '')` as used by `_generate_doc_id`:
a missing key yields `''`; values are rendered as in an f-string. -/
def metaGetStr (md : Metadata) (key : String) : String :=
  match md.lookup key with
  | some (MetaValue.s v) => v
  | some (MetaValue.n v) => toString v
  | none => ""

/-- `langchain_core.documents.Document`: content, metadata and explicit id. -/
structure Document where
  page_content : String
  metadata : Metadata
  id : String
deriving DecidableEq

/-- `hashlib.md5(key.encode()).hexdigest()` is an external hash. It is
embedded as an injective stand-in (the identity map on the key string):
the spec's identity guarantees presuppose collision-freeness (§4.1), and
every refutation proved below uses only that md5 maps equal inputs to
equal outputs, which holds for the real md5 as well. -/
def md5_hex (s : String) : String := s

/-- The §4.1 contract `identify(primary_key, type, content)`: the key string
the source builds is `f"{primary_key}:{type}:{content[:100]}"`, then hashed. -/
def identify (primary_key type_ content : String) : String :=
  md5_hex (primary_key ++ ":" ++ type_ ++ ":" ++ strTake content 100)

/-- `RAGSystem._generate_doc_id(content, metadata)`:
`md5(f"{metadata.get('unit_code','')}:{metadata.get('type','')}:{content[:100]}")`. -/
def generate_doc_id (content : String) (md : Metadata) : String :=
  identify (metaGetStr md "unit_code") (metaGetStr md "type") content

/-- The mutable state of a `RAGSystem`: the process-local seen-id set
`self.indexed_ids` and the persistent Chroma collection, modelled as a
list of documents keyed by `id` with upsert semantics. -/
structure RAGState where
  indexed_ids : List String
  corpus : List Document
deriving DecidableEq

/-- Chroma `add_documents` with explicit ids upserts one document:
an existing id is overwritten in place, otherwise the document is appended. -/
def upsert (c : List Document) (d : Document) : List Document :=
  if c.any (fun e => e.id == d.id) then
    c.map (fun e => if e.id == d.id then d else e)
  else
    c ++ [d]

/-- Upsert a batch of documents in order. -/
def upsertAll (c : List Document) (docs : List Document) : List Document :=
  docs.foldl upsert c

/-- The set of ids present in the index. -/
def corpusIds (c : List Document) : List String := c.map (fun d => d.id)

/-- The per-candidate seen-set check shared by the three ingest methods:
walk candidate documents in order; a candidate whose id is already in
`self.indexed_ids` is skipped, otherwise it joins the pending batch and
its id joins the seen set.  Returns (pending batch, final seen set). -/
def processCandidates : List Document → List String → List Document × List String
  | [], seen => ([], seen)
  | d :: ds, seen =>
    if d.id ∈ seen then processCandidates ds seen
    else
      let p := processCandidates ds (d.id :: seen)
      (d :: p.1, p.2)

/-- Common tail of the ingest methods: dedup candidates against the seen
set, then (`if documents:`) submit the non-empty batch to the index. -/
def ingestDocs (cands : List Document) (s : RAGState) : RAGState :=
  let p := processCandidates cands s.indexed_ids
  { indexed_ids := p.2
    corpus := if p.1.isEmpty then s.corpus else upsertAll s.corpus p.1 }

/-- A unit record as stored in the units table (`get_all_units` value):
`title`, `description` and `learning_outcomes` are always present in the
rows `ingest_units` reads; `raw_prerequisites` and `credit_points` are
read with `.get` defaults. -/
structure UnitRecord where
  title : String
  description : String
  prerequisites : List String
  raw_prerequisites : Option String
  credit_points : Option String
  learning_outcomes : List String
deriving DecidableEq

/-- `', '.join(prereq_list) if prereq_list else unit.get('raw_prerequisites', 'None')`. -/
def prereqText (u : UnitRecord) : String :=
  if u.prerequisites.isEmpty then u.raw_prerequisites.getD "None"
  else String.intercalate ", " u.prerequisites

/-- The `description` document text built by `ingest_units`. -/
def descText (unit_code : String) (u : UnitRecord) : String :=
  "Unit Code: " ++ unit_code ++ "\nTitle: " ++ u.title ++ "\nDescription: "
    ++ u.description ++ "\nPrerequisites: " ++ prereqText u
    ++ "\nCredit Points: " ++ u.credit_points.getD "N/A"

/-- The `learning_outcome` document text for outcome number `i`
(0-based index, displayed 1-based). -/
def loText (unit_code : String) (i : Nat) (outcome : String) : String :=
  "Unit Code: " ++ unit_code ++ "\nLearning Outcome " ++ toString (i + 1)
    ++ ": " ++ outcome

/-- Metadata of a unit `description` document. -/
def descMetadata (unit_code : String) : Metadata :=
  [("source", MetaValue.s "unit_guide"), ("type", MetaValue.s "description"),
   ("unit_code", MetaValue.s unit_code)]

/-- Metadata of a `learning_outcome` document. -/
def loMetadata (unit_code : String) (i : Nat) : Metadata :=
  [("source", MetaValue.s "unit_guide"), ("type", MetaValue.s "learning_outcome"),
   ("unit_code", MetaValue.s unit_code), ("outcome_index", MetaValue.n i)]

/-- The candidate documents one unit contributes, in source order:
the description document first, then one document per learning outcome. -/
def unitCandidates (unit_code : String) (u : UnitRecord) : List Document :=
  let dt := descText unit_code u
  { page_content := dt, metadata := descMetadata unit_code
    id := generate_doc_id dt (descMetadata unit_code) }
    :: (List.range u.learning_outcomes.length).map (fun i =>
        let lt := loText unit_code i (u.learning_outcomes.getD i "")
        { page_content := lt, metadata := loMetadata unit_code i
          id := generate_doc_id lt (loMetadata unit_code i) })

/-- `RAGSystem.ingest_units` over the rows of the units table
(`units.items()` in insertion order). -/
def ingest_units (units : List (String × UnitRecord)) (s : RAGState) : RAGState :=
  ingestDocs (units.flatMap (fun p => unitCandidates p.1 p.2)) s

/-- A JSON skill record; required fields (`skill`, `roles`, `description`)
are `Option` so that a missing key can be represented; `certifications`
is read with `.get(..., [])`. -/
structure SkillRecord where
  skill : Option String
  roles : Option (List String)
  description : Option String
  certifications : Option (List String)
deriving DecidableEq

/-- Build the document for one skill record. A missing required field
raises `KeyError` in the source (`item['skill']` etc.), modelled as
`Except.error` naming the field; fields are read in evaluation order. -/
def skillDoc (it : SkillRecord) : Except String Document :=
  match it.skill with
  | none => Except.error "KeyError: skill"
  | some sk =>
    match it.roles with
    | none => Except.error "KeyError: roles"
    | some ro =>
      match it.description with
      | none => Except.error "KeyError: description"
      | some de =>
        let text := "Skill: " ++ sk ++ "\nRoles: " ++ String.intercalate ", " ro
          ++ "\nDescription: " ++ de ++ "\nCertifications: "
          ++ String.intercalate ", " (it.certifications.getD [])
        let md : Metadata := [("source", MetaValue.s "skills_mapping"),
          ("type", MetaValue.s "skill"), ("skill_name", MetaValue.s sk)]
        Except.ok { page_content := text, metadata := md
                    id := generate_doc_id text md }

/-- A JSON learning-material record; `title`, `type`, `description`, `url`
are required, `tags` is read with `.get(..., [])`. -/
structure MaterialRecord where
  title : Option String
  type_ : Option String
  description : Option String
  url : Option String
  tags : Option (List String)
deriving DecidableEq

/-- Build the document for one material record; a missing required field
raises `KeyError`, modelled as `Except.error`. -/
def materialDoc (it : MaterialRecord) : Except String Document :=
  match it.title with
  | none => Except.error "KeyError: title"
  | some ti =>
    match it.type_ with
    | none => Except.error "KeyError: type"
    | some ty =>
      match it.description with
      | none => Except.error "KeyError: description"
      | some de =>
        match it.url with
        | none => Except.error "KeyError: url"
        | some u =>
          let text := "Title: " ++ ti ++ "\nType: " ++ ty ++ "\nDescription: "
            ++ de ++ "\nURL: " ++ u ++ "\nTags: "
            ++ String.intercalate ", " (it.tags.getD [])
          let md : Metadata := [("source", MetaValue.s "public_resource"),
            ("type", MetaValue.s "material"), ("title", MetaValue.s ti)]
          Except.ok { page_content := text, metadata := md
                      id := generate_doc_id text md }

/-- The loop shared by `ingest_skills` and `ingest_materials`: build each
record's document in order (an exception aborts the walk on the spot,
leaving the seen set as mutated so far and the pending batch unsubmitted),
deduplicating against the seen set.
Returns (pending batch, seen set, raised exception if any). -/
def processItems (f : α → Except String Document) :
    List α → List String → List Document × List String × Option String
  | [], seen => ([], seen, none)
  | it :: rest, seen =>
    match f it with
    | Except.error e => ([], seen, some e)
    | Except.ok d =>
      if d.id ∈ seen then processItems f rest seen
      else
        let p := processItems f rest (d.id :: seen)
        (d :: p.1, p.2.1, p.2.2)

/-- `ingest_skills` / `ingest_materials` over an already-loaded record
list: on an exception the batch is never submitted (the `await` of
`add_documents` is only reached after the loop), so the corpus is
unchanged; otherwise the non-empty batch is upserted. -/
def ingestRecords (f : α → Except String Document) (items : List α)
    (s : RAGState) : RAGState × Option String :=
  match processItems f items s.indexed_ids with
  | (docs, seen', none) =>
    ({ indexed_ids := seen'
       corpus := if docs.isEmpty then s.corpus else upsertAll s.corpus docs }, none)
  | (_, seen', some e) => ({ indexed_ids := seen', corpus := s.corpus }, some e)

/-- `RAGSystem.ingest_skills` on the parsed contents of the skills file. -/
def ingest_skills (items : List SkillRecord) (s : RAGState) :
    RAGState × Option String :=
  ingestRecords skillDoc items s

/-- `RAGSystem.ingest_materials` on the parsed contents of the materials file. -/
def ingest_materials (items : List MaterialRecord) (s : RAGState) :
    RAGState × Option String :=
  ingestRecords materialDoc items s

/-- `RAGSystem._normalize_score`: clamp the distance at 2.0, map linearly
to a 0–100 percentage, round to 2 decimal places. -/
def normalize_score (distance : ℚ) : ℚ :=
  let clamped := min distance 2
  let similarity := max 0 (100 * (1 - clamped / 2))
  roundTo 2 similarity

/-- Modelled from the spec (§4.2): the distance-to-relevance formula as the
spec writes it, `round(max(0, 100 * (1 - min(distance, D_max) / D_max)), 2)`
with `D_max = 2.0`; stated separately to compare against the source's
`_normalize_score`. -/
def similaritySpec (distance : ℚ) : ℚ :=
  roundTo 2 (max 0 (100 * (1 - (min distance 2) / 2)))

/-- The fixed abbreviation table `QUERY_EXPANSIONS`, in the source's
insertion (= iteration) order. -/
def QUERY_EXPANSIONS : List (String × String) :=
  [("oop", "object-oriented programming"),
   ("db", "database"),
   ("ai", "artificial intelligence"),
   ("ml", "machine learning"),
   ("ds", "data science"),
   ("fe", "frontend"),
   ("be", "backend")]

/-- Python `pat in s` on character lists (substring containment). -/
def listContains (pat : List Char) : List Char → Bool
  | [] => pat.isEmpty
  | c :: cs => pat.isPrefixOf (c :: cs) || listContains pat cs

/-- Python `s.replace(pat, rep)` on character lists: replace every
non-overlapping occurrence left to right, not re-scanning replacements.
`fuel` bounds the recursion (one unit per consumed source character). -/
def replaceAllAux (pat rep : List Char) : Nat → List Char → List Char
  | _, [] => []
  | 0, s => s
  | Nat.succ fuel, c :: cs =>
    if pat.isPrefixOf (c :: cs) then
      rep ++ replaceAllAux pat rep fuel ((c :: cs).drop pat.length)
    else c :: replaceAllAux pat rep fuel cs

/-- Python `s.replace(pat, rep)` for non-empty `pat` (the table's
abbreviations are all non-empty). -/
def replaceAllStr (s pat rep : String) : String :=
  if pat.isEmpty then s
  else ⟨replaceAllAux pat.data rep.data s.data.length s.data⟩

/-- `RAGSystem._expand_query`: the containment check runs against the
lowercased *original* query (computed once); each hit replaces the
exact-lowercase form and then the upper-case form in the evolving query. -/
def expand_query (query : String) : String :=
  let query_lower := strLower query
  QUERY_EXPANSIONS.foldl
    (fun q p =>
      if listContains p.1.data query_lower.data then
        replaceAllStr (replaceAllStr q p.1 p.2) (strUpper p.1) p.2
      else q)
    query

/-- One `if <param>: where_filter[key] = <param>` step of the filter
assembly: the parameter contributes its pair when Python-truthy
(`None` and `''` are both falsy and contribute nothing). -/
def filterEntry (key : String) (o : Option String) : List (String × String) :=
  match o with
  | some v => if v.isEmpty then [] else [(key, v)]
  | none => []

/-- The `where_filter` dict assembled by `query`, in source order. -/
def buildWhereFilter (filter_source filter_type filter_unit_code : Option String) :
    List (String × String) :=
  filterEntry "source" filter_source ++ filterEntry "type" filter_type
    ++ filterEntry "unit_code" filter_unit_code

/-- The index-side filter contract (§4.2): a document is eligible when its
metadata matches every key/value pair of the filter. -/
def matchesFilter (f : List (String × String)) (md : Metadata) : Bool :=
  f.all (fun p => md.lookup p.1 == some (MetaValue.s p.2))

/-- One formatted query result, as the dict `query` appends. -/
structure QueryResult where
  content : String
  metadata : Metadata
  distance : ℚ
  similarity_percent : ℚ
deriving DecidableEq

/-- The result dict for one accepted candidate: content and metadata are
taken from the document, `distance` is `round(distance, 4)` and
`similarity_percent` is `_normalize_score(distance)` on the raw distance. -/
def mkResult (d : Document) (distance : ℚ) : QueryResult :=
  { content := d.page_content, metadata := d.metadata
    distance := roundTo 4 distance
    similarity_percent := normalize_score distance }

/-- The result loop of `query`: walk `(doc, distance)` candidates in index
order; a candidate whose content hash was already accepted is skipped;
after each candidate, break once `len(formatted_results) >= k`. -/
def queryLoop (k : Nat) :
    List (Document × ℚ) → List String → List QueryResult → List QueryResult
  | [], _, acc => acc
  | (d, dist) :: rest, seen_content, acc =>
    let h := md5_hex d.page_content
    if h ∈ seen_content then
      if k ≤ acc.length then acc else queryLoop k rest seen_content acc
    else
      let acc' := acc ++ [mkResult d dist]
      if k ≤ acc'.length then acc' else queryLoop k rest (h :: seen_content) acc'

/-- The pure first-occurrence content filter the loop implements before
truncation: keep a candidate iff its content hash is not in `seen` and has
not occurred earlier in the walk. -/
def dedupCandidates (seen : List String) : List (Document × ℚ) → List (Document × ℚ)
  | [] => []
  | (d, dist) :: rest =>
    let h := md5_hex d.page_content
    if h ∈ seen then dedupCandidates seen rest
    else (d, dist) :: dedupCandidates (md5_hex d.page_content :: seen) rest

/-- `RAGSystem.query`.  The vector index (`similarity_search_with_score`,
embedding included) is external and passed as the oracle `search`; both
Python branches request `k * 2` candidates, one with the assembled filter
and one with no filter at all, and an empty filter mapping takes the
no-filter branch, so the call is modelled once with the (possibly empty)
filter.  The method reads `self` but assigns nothing, so the state is
returned alongside the results. -/
def query (search : String → Nat → List (String × String) → List (Document × ℚ))
    (query_text : String) (k : Nat)
    (filter_source filter_type filter_unit_code : Option String)
    (s : RAGState) : List QueryResult × RAGState :=
  let expanded_query := expand_query query_text
  let where_filter := buildWhereFilter filter_source filter_type filter_unit_code
  let results := search expanded_query (k * 2) where_filter
  (queryLoop k results [] [], s)

/-! ### Rounding lemmas -/

theorem floor_le_roundHalfEven (x : ℚ) : ⌊x⌋ ≤ roundHalfEven x := by
  unfold roundHalfEven
  split_ifs <;> omega

theorem roundHalfEven_le_floor_add_one (x : ℚ) : roundHalfEven x ≤ ⌊x⌋ + 1 := by
  unfold roundHalfEven
  split_ifs <;> omega

theorem roundHalfEven_mono {a b : ℚ} (h : a ≤ b) :
    roundHalfEven a ≤ roundHalfEven b := by
  have hf : ⌊a⌋ ≤ ⌊b⌋ := Int.floor_le_floor h
  rcases lt_or_eq_of_le hf with hlt | heq
  · calc roundHalfEven a ≤ ⌊a⌋ + 1 := roundHalfEven_le_floor_add_one a
      _ ≤ ⌊b⌋ := by omega
      _ ≤ roundHalfEven b := floor_le_roundHalfEven b
  · unfold roundHalfEven
    rw [← heq]
    have hr : a - (⌊a⌋ : ℚ) ≤ b - (⌊a⌋ : ℚ) := by linarith
    split_ifs <;> first | omega | linarith

theorem roundTo_mono (n : ℕ) {a b : ℚ} (h : a ≤ b) : roundTo n a ≤ roundTo n b := by
  unfold roundTo
  have hp : (0:ℚ) < (10:ℚ)^n := by positivity
  have := roundHalfEven_mono (mul_le_mul_of_nonneg_right h (le_of_lt hp))
  exact (div_le_div_iff_of_pos_right hp).mpr (by exact_mod_cast this)

/-! ### Normalization lemmas -/

theorem normalize_score_eq_spec (d : ℚ) : normalize_score d = similaritySpec d := rfl

theorem normalize_score_zero : normalize_score 0 = 100 := by
  unfold normalize_score roundTo roundHalfEven
  norm_num

theorem normalize_score_of_two_le {d : ℚ} (h : 2 ≤ d) : normalize_score d = 0 := by
  unfold normalize_score
  rw [min_eq_right h]
  unfold roundTo roundHalfEven
  norm_num

theorem normalize_score_antitone {d₁ d₂ : ℚ} (h : d₁ ≤ d₂) :
    normalize_score d₂ ≤ normalize_score d₁ := by
  unfold normalize_score
  apply roundTo_mono
  have hmin : min d₁ 2 ≤ min d₂ 2 := min_le_min h (le_refl 2)
  have : 100 * (1 - min d₂ 2 / 2) ≤ 100 * (1 - min d₁ 2 / 2) := by linarith
  exact max_le_max (le_refl 0) this

/-! ### Ingestion lemmas -/

theorem seen_subset_processCandidates (cands : List Document) (seen : List String)
    {x : String} (hx : x ∈ seen) : x ∈ (processCandidates cands seen).2 := by
  induction cands generalizing seen with
  | nil => simpa [processCandidates] using hx
  | cons d ds ih =>
    simp only [processCandidates]
    split
    · exact ih seen hx
    · exact ih (d.id :: seen) (List.mem_cons_of_mem _ hx)

theorem mem_processCandidates_seen (cands : List Document) (seen : List String)
    {d : Document} (hd : d ∈ cands) : d.id ∈ (processCandidates cands seen).2 := by
  induction cands generalizing seen with
  | nil => cases hd
  | cons c cs ih =>
    simp only [processCandidates]
    rcases List.mem_cons.mp hd with rfl | hmem
    · split
      · next hin => exact seen_subset_processCandidates cs seen hin
      · exact seen_subset_processCandidates cs (d.id :: seen) (List.mem_cons_self _ _)
    · split
      · exact ih seen hmem
      · exact ih (c.id :: seen) hmem

theorem processCandidates_of_all_seen (cands : List Document) (seen : List String)
    (h : ∀ d ∈ cands, d.id ∈ seen) : processCandidates cands seen = ([], seen) := by
  induction cands with
  | nil => rfl
  | cons d ds ih =>
    simp only [processCandidates]
    rw [if_pos (h d (List.mem_cons_self _ _))]
    exact ih (fun e he => h e (List.mem_cons_of_mem _ he))

theorem processCandidates_seen_iff (cands : List Document) (seen : List String)
    (x : String) : x ∈ (processCandidates cands seen).2 ↔
      x ∈ cands.map (fun d => d.id) ∨ x ∈ seen := by
  induction cands generalizing seen with
  | nil => simp [processCandidates]
  | cons d ds ih =>
    simp only [processCandidates, List.map_cons, List.mem_cons]
    split
    · next hin =>
      rw [ih seen]
      constructor
      · tauto
      · rintro ((rfl | h) | h) <;> tauto
    · rw [ih (d.id :: seen)]
      simp only [List.mem_cons]
      tauto

theorem processCandidates_docs_ids (cands : List Document) (seen : List String)
    (x : String) :
    (x ∈ (processCandidates cands seen).1.map (fun d => d.id) ∨ x ∈ seen) ↔
      (x ∈ cands.map (fun d => d.id) ∨ x ∈ seen) := by
  induction cands generalizing seen with
  | nil => simp [processCandidates]
  | cons d ds ih =>
    simp only [processCandidates, List.map_cons, List.mem_cons]
    split
    · next hin =>
      rw [ih seen]
      constructor
      · tauto
      · rintro ((rfl | h) | h) <;> tauto
    · have := ih (d.id :: seen)
      simp only [List.mem_cons] at this
      simp only [List.map_cons, List.mem_cons]
      tauto

theorem corpusIds_upsert (c : List Document) (d : Document) (x : String) :
    x ∈ corpusIds (upsert c d) ↔ x ∈ corpusIds c ∨ x = d.id := by
  unfold upsert corpusIds
  split
  · next hany =>
    have hdid : d.id ∈ c.map (fun e => e.id) := by
      rcases List.any_eq_true.mp hany with ⟨e, he, heq⟩
      exact List.mem_map.mpr ⟨e, he, eq_of_beq heq⟩
    rw [List.map_map]
    have hmaps : c.map ((fun e => e.id) ∘ fun e => if e.id == d.id then d else e)
        = c.map (fun e => e.id) := by
      apply List.map_congr_left
      intro e _
      by_cases h : e.id = d.id
      · simp [Function.comp, h]
      · simp [Function.comp, h]
    rw [hmaps]
    constructor
    · tauto
    · rintro (h | rfl)
      · exact h
      · exact hdid
  · simp

theorem corpusIds_upsertAll (c : List Document) (docs : List Document) (x : String) :
    x ∈ corpusIds (upsertAll c docs) ↔
      x ∈ corpusIds c ∨ x ∈ docs.map (fun d => d.id) := by
  induction docs generalizing c with
  | nil => simp [upsertAll]
  | cons d ds ih =>
    simp only [upsertAll, List.foldl_cons, List.map_cons, List.mem_cons]
    have := ih (upsert c d)
    simp only [upsertAll] at this
    rw [this, corpusIds_upsert]
    tauto

/-- Re-running an ingest in the same process is the identity: every
candidate id is already in the seen set, so the pending batch is empty and
no index call is made. -/
theorem ingestDocs_idem (cands : List Document) (s : RAGState) :
    ingestDocs cands (ingestDocs cands s) = ingestDocs cands s := by
  unfold ingestDocs
  have hall : ∀ d ∈ cands, d.id ∈ (processCandidates cands s.indexed_ids).2 :=
    fun d hd => mem_processCandidates_seen cands s.indexed_ids hd
  rw [processCandidates_of_all_seen cands _ hall]
  simp

/-- Re-running an ingest in a fresh process (empty seen set, persistent
corpus) leaves the id set of the corpus unchanged: the recomputed batch
carries the same ids, which the index upsert absorbs. -/
theorem ingestDocs_fresh_ids (cands : List Document) (c : List Document)
    (x : String) :
    (x ∈ corpusIds (ingestDocs cands
        { indexed_ids := [], corpus := (ingestDocs cands { indexed_ids := [], corpus := c }).corpus }).corpus) ↔
      x ∈ corpusIds (ingestDocs cands { indexed_ids := [], corpus := c }).corpus := by
  unfold ingestDocs
  dsimp only
  split
  · tauto
  · rw [corpusIds_upsertAll, corpusIds_upsertAll]
    tauto

/-! ### Skills / materials ingestion lemmas -/

theorem seen_subset_processItems (f : α → Except String Document)
    (items : List α) (seen : List String) {x : String} (hx : x ∈ seen) :
    x ∈ (processItems f items seen).2.1 := by
  induction items generalizing seen with
  | nil => simpa [processItems] using hx
  | cons it rest ih =>
    simp only [processItems]
    split
    · simpa using hx
    · split
      · exact ih seen hx
      · next d _ _ => exact ih (d.id :: seen) (List.mem_cons_of_mem _ hx)

/-- A second pass over the same record list, starting from the seen set the
first pass produced, accepts nothing and stops with the same exception. -/
theorem processItems_second_pass (f : α → Except String Document)
    (items : List α) (seen : List String) :
    processItems f items (processItems f items seen).2.1 =
      ([], (processItems f items seen).2.1, (processItems f items seen).2.2) := by
  induction items generalizing seen with
  | nil => rfl
  | cons it rest ih =>
    simp only [processItems]
    cases hf : f it with
    | error e => simp [processItems, hf]
    | ok d =>
      simp only [processItems, hf]
      split
      · next hin =>
        rw [if_pos (seen_subset_processItems f rest seen hin)]
        exact ih seen
      · rw [if_pos (seen_subset_processItems f rest (d.id :: seen)
          (List.mem_cons_self _ _))]
        exact ih (d.id :: seen)

/-- An exception is raised iff some record in the batch is malformed
(its builder returns an error), independent of the seen set. -/
theorem processItems_error_iff (f : α → Except String Document)
    (items : List α) (seen : List String) :
    (processItems f items seen).2.2.isSome = true ↔
      ∃ it ∈ items, ∃ e, f it = Except.error e := by
  induction items generalizing seen with
  | nil => simp [processItems]
  | cons it rest ih =>
    cases hf : f it with
    | error e =>
      simp only [processItems, hf]
      exact ⟨fun _ => ⟨it, List.mem_cons_self _ _, e, hf⟩, fun _ => rfl⟩
    | ok d =>
      simp only [processItems, hf]
      split
      · rw [ih seen]
        simp only [List.mem_cons]
        constructor
        · rintro ⟨a, ha, e, he⟩; exact ⟨a, Or.inr ha, e, he⟩
        · rintro ⟨a, (rfl | ha), e, he⟩
          · rw [hf] at he; exact Except.noConfusion he
          · exact ⟨a, ha, e, he⟩
      · dsimp only
        rw [ih (d.id :: seen)]
        simp only [List.mem_cons]
        constructor
        · rintro ⟨a, ha, e, he⟩; exact ⟨a, Or.inr ha, e, he⟩
        · rintro ⟨a, (rfl | ha), e, he⟩
          · rw [hf] at he; exact Except.noConfusion he
          · exact ⟨a, ha, e, he⟩

/-- When an exception is raised the index is never reached: the corpus is
exactly the pre-call corpus. -/
theorem ingestRecords_error_corpus (f : α → Except String Document)
    (items : List α) (s : RAGState)
    (h : (ingestRecords f items s).2.isSome = true) :
    (ingestRecords f items s).1.corpus = s.corpus := by
  unfold ingestRecords at h ⊢
  rcases hp : processItems f items s.indexed_ids with ⟨docs, seen', err⟩
  rw [hp] at h
  cases err with
  | none => simp at h
  | some e => rfl

/-- Same-process idempotence for `ingest_skills` / `ingest_materials`,
including batches with malformed records: the second call returns the very
same state and the same exception. -/
theorem ingestRecords_idem (f : α → Except String Document)
    (items : List α) (s : RAGState) :
    ingestRecords f items (ingestRecords f items s).1 = ingestRecords f items s := by
  unfold ingestRecords
  rcases hp : processItems f items s.indexed_ids with ⟨docs, seen', err⟩
  have h2 := processItems_second_pass f items s.indexed_ids
  rw [hp] at h2
  dsimp only at h2
  cases err with
  | none =>
    dsimp only
    rw [h2]
    simp
  | some e =>
    dsimp only
    rw [h2]

/-- Fresh-process re-ingestion for `ingest_skills` / `ingest_materials`
preserves the corpus id set. -/
theorem ingestRecords_fresh_ids (f : α → Except String Document)
    (items : List α) (c : List Document) (x : String) :
    (x ∈ corpusIds (ingestRecords f items
        { indexed_ids := [],
          corpus := (ingestRecords f items { indexed_ids := [], corpus := c }).1.corpus }).1.corpus) ↔
      x ∈ corpusIds (ingestRecords f items { indexed_ids := [], corpus := c }).1.corpus := by
  unfold ingestRecords
  dsimp only
  rcases hp : processItems f items [] with ⟨docs, seen', err⟩
  cases err with
  | none =>
    dsimp only
    by_cases hd : docs.isEmpty = true
    · simp [hd]
    · simp only [if_neg hd]
      rw [corpusIds_upsertAll, corpusIds_upsertAll]
      tauto
  | some e => exact Iff.rfl

/-! ### Query-loop lemmas -/

theorem dedupCandidates_sublist (seen : List String) (cands : List (Document × ℚ)) :
    (dedupCandidates seen cands).Sublist cands := by
  induction cands generalizing seen with
  | nil => simp [dedupCandidates]
  | cons p rest ih =>
    obtain ⟨d, dist⟩ := p
    simp only [dedupCandidates]
    split
    · exact (ih seen).cons _
    · exact (ih _).cons₂ _

theorem mem_dedupCandidates_not_seen (seen : List String)
    (cands : List (Document × ℚ)) {p : Document × ℚ}
    (hp : p ∈ dedupCandidates seen cands) : md5_hex p.1.page_content ∉ seen := by
  induction cands generalizing seen with
  | nil => simp [dedupCandidates] at hp
  | cons q rest ih =>
    obtain ⟨d, dist⟩ := q
    simp only [dedupCandidates] at hp
    split at hp
    · exact ih seen hp
    · next hq =>
      rcases List.mem_cons.mp hp with rfl | hmem
      · exact hq
      · intro hin
        exact ih _ hmem (List.mem_cons_of_mem _ hin)

theorem dedupCandidates_hashes_nodup (seen : List String)
    (cands : List (Document × ℚ)) :
    ((dedupCandidates seen cands).map
      (fun p => md5_hex p.1.page_content)).Nodup := by
  induction cands generalizing seen with
  | nil => simp [dedupCandidates]
  | cons q rest ih =>
    obtain ⟨d, dist⟩ := q
    simp only [dedupCandidates]
    split
    · exact ih seen
    · simp only [List.map_cons, List.nodup_cons]
      refine ⟨?_, ih _⟩
      intro hmem
      rcases List.mem_map.mp hmem with ⟨p, hp, hph⟩
      have := mem_dedupCandidates_not_seen _ _ hp
      exact this (by rw [hph]; exact List.mem_cons_self _ _)

theorem dedupCandidates_first_occurrence (seen : List String)
    (cands : List (Document × ℚ)) {p : Document × ℚ}
    (hp : p ∈ dedupCandidates seen cands) :
    ∃ n, ∃ h : n < cands.length, p = cands.get ⟨n, h⟩ ∧
      ∀ m, ∀ hm : m < cands.length, m < n →
        md5_hex (cands.get ⟨m, hm⟩).1.page_content ≠ md5_hex p.1.page_content := by
  induction cands generalizing seen with
  | nil => simp [dedupCandidates] at hp
  | cons q rest ih =>
    obtain ⟨d, dist⟩ := q
    simp only [dedupCandidates] at hp
    split at hp
    · next hq =>
      rcases ih seen hp with ⟨n, hn, hget, hcond⟩
      refine ⟨n + 1, by simpa using Nat.succ_lt_succ hn, by simpa using hget, ?_⟩
      intro m hm hmn
      cases m with
      | zero =>
        simp only [List.get]
        intro hcontra
        exact mem_dedupCandidates_not_seen seen rest hp (hcontra ▸ hq)
      | succ m' =>
        have hm' : m' < rest.length := by simpa using hm
        have := hcond m' hm' (Nat.lt_of_succ_lt_succ hmn)
        simpa using this
    · next hq =>
      rcases List.mem_cons.mp hp with rfl | hmem
      · exact ⟨0, by simp, rfl, fun m hm hc => absurd hc (Nat.not_lt_zero m)⟩
      · rcases ih _ hmem with ⟨n, hn, hget, hcond⟩
        refine ⟨n + 1, by simpa using Nat.succ_lt_succ hn, by simpa using hget, ?_⟩
        intro m hm hmn
        cases m with
        | zero =>
          simp only [List.get]
          intro hcontra
          exact mem_dedupCandidates_not_seen _ rest hmem
            (hcontra ▸ List.mem_cons_self _ _)
        | succ m' =>
          have hm' : m' < rest.length := by simpa using hm
          have := hcond m' hm' (Nat.lt_of_succ_lt_succ hmn)
          simpa using this

/-- The loop equals "filter first occurrences, truncate to the remaining
budget, format": the early break is invisible in the final value. -/
theorem queryLoop_eq_take_dedup (k : ℕ) (cands : List (Document × ℚ))
    (seen : List String) (acc : List QueryResult) (hacc : acc.length < k) :
    queryLoop k cands seen acc =
      acc ++ ((dedupCandidates seen cands).take (k - acc.length)).map
        (fun p => mkResult p.1 p.2) := by
  induction cands generalizing seen acc with
  | nil => simp [queryLoop, dedupCandidates]
  | cons q rest ih =>
    obtain ⟨d, dist⟩ := q
    simp only [queryLoop, dedupCandidates]
    split
    · rw [if_neg (by omega)]
      exact ih seen acc hacc
    · by_cases hk : k ≤ (acc ++ [mkResult d dist]).length
      · rw [if_pos hk]
        have hk' : k - acc.length = 1 := by
          simp only [List.length_append, List.length_cons, List.length_nil] at hk ⊢
          omega
        rw [hk']
        simp
      · rw [if_neg hk]
        have hlen : (acc ++ [mkResult d dist]).length < k := by omega
        rw [ih _ _ hlen]
        have harith : k - acc.length = (k - (acc ++ [mkResult d dist]).length) + 1 := by
          simp only [List.length_append, List.length_cons, List.length_nil] at *
          omega
        rw [harith]
        simp [List.take_succ_cons]

/-- Every result the loop emits is either carried in from `acc` or the
formatting of some candidate. -/
theorem queryLoop_mem (k : ℕ) (cands : List (Document × ℚ))
    (seen : List String) (acc : List QueryResult) {r : QueryResult}
    (hr : r ∈ queryLoop k cands seen acc) :
    r ∈ acc ∨ ∃ p ∈ cands, r = mkResult p.1 p.2 := by
  induction cands generalizing seen acc with
  | nil => exact Or.inl (by simpa [queryLoop] using hr)
  | cons q rest ih =>
    obtain ⟨d, dist⟩ := q
    simp only [queryLoop] at hr
    split at hr
    · split at hr
      · exact Or.inl hr
      · rcases ih _ _ hr with h | ⟨p, hp, hfmt⟩
        · exact Or.inl h
        · exact Or.inr ⟨p, List.mem_cons_of_mem _ hp, hfmt⟩
    · split at hr
      · rcases List.mem_append.mp hr with h | h
        · exact Or.inl h
        · exact Or.inr ⟨(d, dist), List.mem_cons_self _ _,
            by simpa using h⟩
      · rcases ih _ _ hr with h | ⟨p, hp, hfmt⟩
        · rcases List.mem_append.mp h with h' | h'
          · exact Or.inl h'
          · exact Or.inr ⟨(d, dist), List.mem_cons_self _ _, by simpa using h'⟩
        · exact Or.inr ⟨p, List.mem_cons_of_mem _ hp, hfmt⟩

/-! ### Concrete sample records -/

/-- The spec's §8 scenario unit record `COMP1000`. -/
def comp1000 : UnitRecord :=
  { title := "Intro", description := "An introduction to programming."
    prerequisites := [], raw_prerequisites := none, credit_points := none
    learning_outcomes := ["Write basic programs"] }

/-- A skill record missing its required `skill` field. -/
def badSkill : SkillRecord := ⟨none, some ["Dev"], some "d", none⟩

/-- A well-formed skill record. -/
def goodSkill : SkillRecord := ⟨some "Python", some ["Dev"], some "desc", none⟩

/-- A material record missing its required `title` field. -/
def badMaterial : MaterialRecord := ⟨none, some "video", some "d", some "u", none⟩

/-- A small indexed document with `skill` metadata, for concrete queries. -/
def sampleSkillDoc : Document :=
  { page_content := "Skill: Python"
    metadata := [("source", MetaValue.s "skills_mapping"), ("type", MetaValue.s "skill")]
    id := "doc1" }

/-- A constant search oracle: the index returns a fixed candidate list. -/
def searchConst (l : List (Document × ℚ)) :
    String → Nat → List (String × String) → List (Document × ℚ) :=
  fun _ _ _ => l

/-! ### Claims -/

/-- C2 (confirmed): for every distance `d` the normalized relevance score
equals `round(max(0, 100 * (1 - min(d, 2.0) / 2.0)), 2)` exactly;
consequently `similarity(0) = 100.0`, `similarity(d) = 0.0` for every
`d ≥ 2.0`, and for `0 ≤ d₁ < d₂ ≤ 2.0`,
`similarity(d₁) ≥ similarity(d₂)`. -/
theorem C2_normalize_score_formula :
    (∀ d : ℚ, normalize_score d = similaritySpec d) ∧
    normalize_score 0 = 100 ∧
    (∀ d : ℚ, 2 ≤ d → normalize_score d = 0) ∧
    (∀ d₁ d₂ : ℚ, 0 ≤ d₁ → d₁ < d₂ → d₂ ≤ 2 →
      normalize_score d₂ ≤ normalize_score d₁) :=
  ⟨normalize_score_eq_spec, normalize_score_zero,
   fun _ h => normalize_score_of_two_le h,
   fun _ _ _ h12 _ => normalize_score_antitone (le_of_lt h12)⟩

/-- Witness for C2 at concrete distances `3` and `1 < 2`. -/
theorem C2_normalize_score_formula_witness :
    ((2:ℚ) ≤ 3 ∧ normalize_score 3 = 0) ∧
    ((0:ℚ) ≤ 1 ∧ (1:ℚ) < 2 ∧ (2:ℚ) ≤ 2 ∧
      normalize_score 2 ≤ normalize_score 1) :=
  ⟨⟨by decide, C2_normalize_score_formula.2.2.1 3 (by decide)⟩,
   ⟨by decide, by decide, by decide,
    C2_normalize_score_formula.2.2.2 1 2 (by decide) (by decide) (by decide)⟩⟩

/-- C3 (counterexample): document identity is *not* uniquely determined by
distinct content — the key truncates content to its first 100 characters,
so two contents agreeing on their first 100 characters (here with empty
primary key, as for global skill entries) receive the *same* id; and the
`':'`-joined key is ambiguous, so two distinct `(primary_key, type,
content)` triples can collide exactly.  Both collisions are key-level, so
they hold for the real md5 with certainty, not merely with high
probability. -/
theorem C3_identity_counterexample :
    (String.mk (List.replicate 100 'a') ≠ String.mk (List.replicate 101 'a') ∧
      identify "" "skill" (String.mk (List.replicate 100 'a')) =
        identify "" "skill" (String.mk (List.replicate 101 'a'))) ∧
    ((("a:", "", "x") : String × String × String) ≠ ("a", ":", "x") ∧
      identify "a:" "" "x" = identify "a" ":" "x") := by
  refine ⟨⟨?_, ?_⟩, ⟨?_, ?_⟩⟩ <;> decide

/-- C3 (amended): document identity is a pure deterministic function of
`(primary_key, type, content truncated to its first 100 characters)`:
identical arguments yield the same id; the id only depends on the first
100 characters of the content; and (md5 collisions aside, modelled here by
an injective hash stand-in) distinct key strings yield distinct ids.
`_generate_doc_id` is exactly `identify` applied to the metadata's
`unit_code` and `type` entries (defaulting to `""`). -/
theorem C3_identity_truncated :
    (∀ pk t c c' : String, strTake c 100 = strTake c' 100 →
      identify pk t c = identify pk t c') ∧
    (∀ (content : String) (md : Metadata),
      generate_doc_id content md =
        identify (metaGetStr md "unit_code") (metaGetStr md "type") content) ∧
    (∀ pk t c pk' t' c' : String,
      pk ++ ":" ++ t ++ ":" ++ strTake c 100 ≠ pk' ++ ":" ++ t' ++ ":" ++ strTake c' 100 →
      identify pk t c ≠ identify pk' t' c') := by
  refine ⟨?_, fun _ _ => rfl, ?_⟩
  · intro pk t c c' h
    unfold identify
    rw [h]
  · intro pk t c pk' t' c' h heq
    exact h heq

/-- Witness for C3 (amended) at concrete inputs: two contents sharing
their first 100 characters get one id; two distinct keys get two ids. -/
theorem C3_identity_truncated_witness :
    (strTake (String.mk (List.replicate 100 'a' ++ ['b'])) 100 =
        strTake (String.mk (List.replicate 100 'a' ++ ['c'])) 100 ∧
      identify "" "skill" (String.mk (List.replicate 100 'a' ++ ['b'])) =
        identify "" "skill" (String.mk (List.replicate 100 'a' ++ ['c']))) ∧
    ("A" ++ ":" ++ "description" ++ ":" ++ strTake "x" 100 ≠
        "B" ++ ":" ++ "description" ++ ":" ++ strTake "x" 100 ∧
      identify "A" "description" "x" ≠ identify "B" "description" "x") :=
  ⟨⟨by decide, C3_identity_truncated.1 "" "skill" _ _ (by decide)⟩,
   ⟨by decide, C3_identity_truncated.2.2 "A" "description" "x" "B" "description" "x"
      (by decide)⟩⟩

/-- Helper for C7: a fold over expansion-table entries none of whose
abbreviations occur in the (fixed) lowered query leaves the query
unchanged. -/
theorem foldl_expand_no_hit (tbl : List (String × String)) (ql : String)
    (q : String) (h : ∀ p ∈ tbl, listContains p.1.data ql.data = false) :
    tbl.foldl
      (fun q p =>
        if listContains p.1.data ql.data then
          replaceAllStr (replaceAllStr q p.1 p.2) (strUpper p.1) p.2
        else q) q = q := by
  induction tbl generalizing q with
  | nil => rfl
  | cons p rest ih =>
    simp only [List.foldl_cons]
    rw [if_neg (by simp [h p (List.mem_cons_self _ _)])]
    exact ih q (fun p' hp' => h p' (List.mem_cons_of_mem _ hp'))

/-- C7 (counterexample): expansion is *not* whole-word.  The query
`"loop"` is a single word (it contains no space), is not itself an
abbreviation of the table (nor its upper-case form), yet the code rewrites
it: `"oop"` occurs as a proper substring and is replaced inside the word,
yielding `"lobject-oriented programming"` instead of leaving `"loop"`
unchanged. -/
theorem C7_expansion_counterexample :
    (∀ p ∈ QUERY_EXPANSIONS, p.1 ≠ "loop" ∧ p.1 ≠ "LOOP") ∧
    (∀ c ∈ "loop".data, c ≠ ' ') ∧
    expand_query "loop" = "lobject-oriented programming" ∧
    expand_query "loop" ≠ "loop" := by
  refine ⟨?_, ?_, ?_, ?_⟩ <;> decide

/-- C7 (amended): expansion is substring replacement, not whole-word: for
each table entry whose (lower-case) abbreviation occurs anywhere in the
lowercased query, all occurrences of the exact-lowercase and upper-case
forms in the query are replaced (a query with no abbreviation substring is
returned unchanged; mixed-case occurrences are detected but left as they
are); in particular `"oop basics"` is searched using text containing
`"object-oriented programming"`. -/
theorem C7_expansion_substring :
    (∀ q : String,
      (∀ p ∈ QUERY_EXPANSIONS, listContains p.1.data (strLower q).data = false) →
      expand_query q = q) ∧
    expand_query "oop basics" = "object-oriented programming basics" ∧
    listContains "object-oriented programming".data
      (expand_query "oop basics").data = true ∧
    expand_query "OOP basics" = "object-oriented programming basics" ∧
    expand_query "oop and oop" =
      "object-oriented programming and object-oriented programming" ∧
    expand_query "Oop basics" = "Oop basics" := by
  refine ⟨?_, by decide, by decide, by decide, by decide, by decide⟩
  intro q h
  unfold expand_query
  exact foldl_expand_no_hit QUERY_EXPANSIONS (strLower q) q h

/-- Witness for C7 (amended): `"calculus"` contains no abbreviation of the
table as a substring and is left unchanged. -/
theorem C7_expansion_substring_witness :
    (∀ p ∈ QUERY_EXPANSIONS,
      listContains p.1.data (strLower "calculus").data = false) ∧
    expand_query "calculus" = "calculus" :=
  ⟨by decide, C7_expansion_substring.1 "calculus" (by decide)⟩

/-- Helper: the result list of `query` is the loop run on the index's
candidate list. -/
theorem query_fst_eq (search : String → Nat → List (String × String) → List (Document × ℚ))
    (query_text : String) (k : ℕ) (fs ft fuc : Option String) (s : RAGState)
    (cands : List (Document × ℚ))
    (hc : cands = search (expand_query query_text) (k * 2) (buildWhereFilter fs ft fuc)) :
    (query search query_text k fs ft fuc s).1 = queryLoop k cands [] [] := by
  rw [hc]
  rfl

/-- C4 (confirmed): `query` returns at most `k` results; the result list
is the formatting of a subsequence of the index's candidate list (so the
index's return order is preserved — no caller-visible re-sort, within ties
and within the truncation to `k`); and when the index returns candidates
in non-decreasing distance order, the emitted distances are non-decreasing
as well.  The hypothesis `cands.length ≤ k * 2` is the index contract: at
most `k * 2` candidates answer a `k * 2`-candidate over-fetch. -/
theorem C4_result_cap_and_order
    (search : String → Nat → List (String × String) → List (Document × ℚ))
    (query_text : String) (k : ℕ) (fs ft fuc : Option String) (s : RAGState)
    (cands : List (Document × ℚ))
    (hc : cands = search (expand_query query_text) (k * 2) (buildWhereFilter fs ft fuc))
    (hlen : cands.length ≤ k * 2) :
    (query search query_text k fs ft fuc s).1.length ≤ k ∧
    (∃ sub, List.Sublist sub cands ∧
      (query search query_text k fs ft fuc s).1 = sub.map (fun p => mkResult p.1 p.2)) ∧
    (cands.Pairwise (fun p q => p.2 ≤ q.2) →
      ((query search query_text k fs ft fuc s).1.map (fun r => r.distance)).Pairwise
        (fun a b => a ≤ b)) := by
  have hq := query_fst_eq search query_text k fs ft fuc s cands hc
  rcases Nat.eq_zero_or_pos k with rfl | hk
  · have hnil : cands = [] := List.eq_nil_of_length_eq_zero (Nat.le_zero.mp hlen)
    subst hnil
    rw [hq]
    exact ⟨by simp [queryLoop], ⟨[], by simp, by simp [queryLoop]⟩,
      fun _ => by simp [queryLoop]⟩
  · have heq := queryLoop_eq_take_dedup k cands [] [] (by simpa using hk)
    simp only [List.length_nil, Nat.sub_zero, List.nil_append] at heq
    rw [hq, heq]
    have hsub : ((dedupCandidates [] cands).take k).Sublist cands :=
      (List.take_sublist k _).trans (dedupCandidates_sublist [] cands)
    refine ⟨?_, ⟨(dedupCandidates [] cands).take k, hsub, rfl⟩, ?_⟩
    · simp only [List.length_map, List.length_take]
      exact min_le_left _ _
    · intro hpair
      rw [List.map_map, List.pairwise_map]
      exact (hpair.sublist hsub).imp (fun h => roundTo_mono 4 h)

/-- Witness for C4 at a concrete one-candidate oracle and `k = 5`. -/
theorem C4_result_cap_and_order_witness :
    ([(sampleSkillDoc, (1:ℚ))] =
      searchConst [(sampleSkillDoc, 1)] (expand_query "x") (5 * 2)
        (buildWhereFilter none none none) ∧
     ([(sampleSkillDoc, (1:ℚ))] : List (Document × ℚ)).length ≤ 5 * 2) ∧
    ((query (searchConst [(sampleSkillDoc, 1)]) "x" 5 none none none
        ⟨[], []⟩).1.length ≤ 5 ∧
      (∃ sub, List.Sublist sub [(sampleSkillDoc, (1:ℚ))] ∧
        (query (searchConst [(sampleSkillDoc, 1)]) "x" 5 none none none
          ⟨[], []⟩).1 = sub.map (fun p => mkResult p.1 p.2)) ∧
      (List.Pairwise (fun (p q : Document × ℚ) => p.2 ≤ q.2)
          [(sampleSkillDoc, (1:ℚ))] →
        ((query (searchConst [(sampleSkillDoc, 1)]) "x" 5 none none none
          ⟨[], []⟩).1.map (fun r => r.distance)).Pairwise (fun a b => a ≤ b))) :=
  ⟨⟨rfl, by simp⟩,
   C4_result_cap_and_order (searchConst [(sampleSkillDoc, 1)]) "x" 5
     none none none ⟨[], []⟩ [(sampleSkillDoc, 1)] rfl (by simp)⟩

/-- Helper for C5: membership in one filter entry. -/
theorem mem_filterEntry (key : String) (o : Option String) (a b : String) :
    (a, b) ∈ filterEntry key o ↔ a = key ∧ o = some b ∧ b ≠ "" := by
  cases o with
  | none => simp [filterEntry]
  | some v =>
    by_cases hv : v.isEmpty = true
    · have hv' : v = "" := (String.isEmpty_iff v).mp hv
      subst hv'
      simp only [filterEntry, if_pos hv, List.not_mem_nil, false_iff]
      rintro ⟨-, heq, hne⟩
      injection heq with h
      exact hne h.symm
    · have hne : v ≠ "" := fun h => hv (by rw [h]; rfl)
      simp only [filterEntry, if_neg hv, List.mem_singleton, Prod.mk.injEq]
      constructor
      · rintro ⟨rfl, rfl⟩
        exact ⟨rfl, rfl, hne⟩
      · rintro ⟨rfl, heq, -⟩
        injection heq with h
        exact ⟨rfl, h.symm⟩

/-- Helper for C5: membership in the assembled `where_filter`. -/
theorem mem_buildWhereFilter (fs ft fuc : Option String) (p : String × String) :
    p ∈ buildWhereFilter fs ft fuc ↔
      (p.1 = "source" ∧ fs = some p.2 ∧ p.2 ≠ "") ∨
      (p.1 = "type" ∧ ft = some p.2 ∧ p.2 ≠ "") ∨
      (p.1 = "unit_code" ∧ fuc = some p.2 ∧ p.2 ≠ "") := by
  obtain ⟨a, b⟩ := p
  simp [buildWhereFilter, List.mem_append, mem_filterEntry]

/-- Helper: unpacking the boolean filter match. -/
theorem matchesFilter_spec (f : List (String × String)) (md : Metadata) :
    matchesFilter f md = true ↔
      ∀ p ∈ f, md.lookup p.1 = some (MetaValue.s p.2) := by
  simp [matchesFilter, List.all_eq_true]

/-- C5 (confirmed): the `where_filter` mapping contains only pairs coming
from the present (truthy) optional parameters — an absent parameter
contributes nothing, it is not matched as null — and, under the index
contract that filtered search returns only metadata matching every filter
pair, every result of a filtered `query` matches every assembled pair; in
particular `filter_type="skill"` only ever returns results whose metadata
`type` is `"skill"`. -/
theorem C5_filter_assembly_and_correctness :
    (∀ (fs ft fuc : Option String) (p : String × String),
      p ∈ buildWhereFilter fs ft fuc →
        (p.1 = "source" ∧ fs = some p.2) ∨ (p.1 = "type" ∧ ft = some p.2) ∨
        (p.1 = "unit_code" ∧ fuc = some p.2)) ∧
    (∀ fuc : Option String, ∀ v : String,
      ("type", v) ∈ buildWhereFilter none none fuc ↔ False) ∧
    (∀ (search : String → Nat → List (String × String) → List (Document × ℚ))
       (query_text : String) (k : ℕ) (fs ft fuc : Option String) (s : RAGState),
      (∀ p ∈ search (expand_query query_text) (k * 2) (buildWhereFilter fs ft fuc),
        matchesFilter (buildWhereFilter fs ft fuc) p.1.metadata = true) →
      ∀ r ∈ (query search query_text k fs ft fuc s).1,
        matchesFilter (buildWhereFilter fs ft fuc) r.metadata = true) ∧
    (∀ (search : String → Nat → List (String × String) → List (Document × ℚ))
       (query_text : String) (k : ℕ) (fs fuc : Option String) (s : RAGState),
      (∀ p ∈ search (expand_query query_text) (k * 2)
          (buildWhereFilter fs (some "skill") fuc),
        matchesFilter (buildWhereFilter fs (some "skill") fuc) p.1.metadata = true) →
      ∀ r ∈ (query search query_text k fs (some "skill") fuc s).1,
        r.metadata.lookup "type" = some (MetaValue.s "skill")) := by
  have hsafety : ∀ (search : String → Nat → List (String × String) → List (Document × ℚ))
      (query_text : String) (k : ℕ) (fs ft fuc : Option String) (s : RAGState),
      (∀ p ∈ search (expand_query query_text) (k * 2) (buildWhereFilter fs ft fuc),
        matchesFilter (buildWhereFilter fs ft fuc) p.1.metadata = true) →
      ∀ r ∈ (query search query_text k fs ft fuc s).1,
        matchesFilter (buildWhereFilter fs ft fuc) r.metadata = true := by
    intro search qt k fs ft fuc s h r hr
    rw [query_fst_eq search qt k fs ft fuc s _ rfl] at hr
    rcases queryLoop_mem k _ [] [] hr with h0 | ⟨p, hp, rfl⟩
    · exact absurd h0 (List.not_mem_nil r)
    · exact h p hp
  refine ⟨?_, ?_, hsafety, ?_⟩
  · intro fs ft fuc p hp
    rcases (mem_buildWhereFilter fs ft fuc p).mp hp with ⟨h1, h2, _⟩ | ⟨h1, h2, _⟩ | ⟨h1, h2, _⟩
    · exact Or.inl ⟨h1, h2⟩
    · exact Or.inr (Or.inl ⟨h1, h2⟩)
    · exact Or.inr (Or.inr ⟨h1, h2⟩)
  · intro fuc v
    rw [mem_buildWhereFilter]
    simp
  · intro search qt k fs fuc s h r hr
    have hm := hsafety search qt k fs (some "skill") fuc s h r hr
    rw [matchesFilter_spec] at hm
    exact hm ("type", "skill")
      ((mem_buildWhereFilter fs (some "skill") fuc ("type", "skill")).mpr
        (Or.inr (Or.inl ⟨rfl, rfl, by decide⟩)))

/-- Witness for C5 at a concrete skill-filtered query over a one-document
oracle. -/
theorem C5_filter_assembly_and_correctness_witness :
    (∀ p ∈ searchConst [(sampleSkillDoc, (1:ℚ))] (expand_query "x") (5 * 2)
        (buildWhereFilter none (some "skill") none),
      matchesFilter (buildWhereFilter none (some "skill") none) p.1.metadata = true) ∧
    (∀ r ∈ (query (searchConst [(sampleSkillDoc, 1)]) "x" 5 none (some "skill") none
        ⟨[], []⟩).1,
      r.metadata.lookup "type" = some (MetaValue.s "skill")) := by
  have hidx : ∀ p ∈ searchConst [(sampleSkillDoc, (1:ℚ))] (expand_query "x") (5 * 2)
      (buildWhereFilter none (some "skill") none),
      matchesFilter (buildWhereFilter none (some "skill") none) p.1.metadata = true := by
    intro p hp
    rcases List.mem_cons.mp hp with rfl | h0
    · decide
    · exact absurd h0 (List.not_mem_nil p)
  exact ⟨hidx, C5_filter_assembly_and_correctness.2.2.2
    (searchConst [(sampleSkillDoc, 1)]) "x" 5 none none ⟨[], []⟩ hidx⟩

/-- C6 (confirmed): query results are deduplicated by content in walk
order with an early stop at `k`: the result list is exactly the
first-occurrence-by-content filter of the candidate walk, truncated to `k`
and formatted; result contents are pairwise distinct; and every result is
the formatting of the earliest candidate bearing its content. -/
theorem C6_content_dedup
    (search : String → Nat → List (String × String) → List (Document × ℚ))
    (query_text : String) (k : ℕ) (fs ft fuc : Option String) (s : RAGState)
    (cands : List (Document × ℚ))
    (hc : cands = search (expand_query query_text) (k * 2) (buildWhereFilter fs ft fuc))
    (hlen : cands.length ≤ k * 2) :
    (query search query_text k fs ft fuc s).1 =
      ((dedupCandidates [] cands).take k).map (fun p => mkResult p.1 p.2) ∧
    ((query search query_text k fs ft fuc s).1.map (fun r => r.content)).Nodup ∧
    (∀ r ∈ (query search query_text k fs ft fuc s).1,
      ∃ n, ∃ hn : n < cands.length,
        r = mkResult (cands.get ⟨n, hn⟩).1 (cands.get ⟨n, hn⟩).2 ∧
        ∀ m, ∀ hm : m < cands.length, m < n →
          (cands.get ⟨m, hm⟩).1.page_content ≠ r.content) := by
  have hq := query_fst_eq search query_text k fs ft fuc s cands hc
  have hmain : (query search query_text k fs ft fuc s).1 =
      ((dedupCandidates [] cands).take k).map (fun p => mkResult p.1 p.2) := by
    rcases Nat.eq_zero_or_pos k with rfl | hk
    · have hnil : cands = [] := List.eq_nil_of_length_eq_zero (Nat.le_zero.mp hlen)
      rw [hq, hnil]
      simp [queryLoop, dedupCandidates]
    · have heq := queryLoop_eq_take_dedup k cands [] [] (by simpa using hk)
      simp only [List.length_nil, Nat.sub_zero, List.nil_append] at heq
      rw [hq, heq]
  refine ⟨hmain, ?_, ?_⟩
  · rw [hmain, List.map_map]
    have hnodup := dedupCandidates_hashes_nodup [] cands
    have hfun : (fun p : Document × ℚ => md5_hex p.1.page_content) =
        (fun p : Document × ℚ => p.1.page_content) := rfl
    rw [hfun] at hnodup
    have hsub : ((dedupCandidates [] cands).take k).map
          (fun p : Document × ℚ => p.1.page_content) |>.Sublist
        ((dedupCandidates [] cands).map (fun p : Document × ℚ => p.1.page_content)) :=
      (List.take_sublist k _).map _
    exact hnodup.sublist hsub
  · intro r hr
    rw [hmain] at hr
    rcases List.mem_map.mp hr with ⟨p, hp, rfl⟩
    have hp' : p ∈ dedupCandidates [] cands := List.mem_of_mem_take hp
    rcases dedupCandidates_first_occurrence [] cands hp' with ⟨n, hn, hget, hcond⟩
    refine ⟨n, hn, by rw [hget], ?_⟩
    intro m hm hmn he
    exact hcond m hm hmn (congrArg md5_hex he)

/-- Witness for C6 at a concrete two-candidate oracle with duplicated
content and `k = 5`. -/
theorem C6_content_dedup_witness :
    ([(sampleSkillDoc, (1:ℚ)), (sampleSkillDoc, (2:ℚ))] =
      searchConst [(sampleSkillDoc, 1), (sampleSkillDoc, 2)] (expand_query "x")
        (5 * 2) (buildWhereFilter none none none) ∧
     ([(sampleSkillDoc, (1:ℚ)), (sampleSkillDoc, (2:ℚ))] :
        List (Document × ℚ)).length ≤ 5 * 2) ∧
    ((query (searchConst [(sampleSkillDoc, 1), (sampleSkillDoc, 2)]) "x" 5
        none none none ⟨[], []⟩).1 =
      ((dedupCandidates []
          [(sampleSkillDoc, (1:ℚ)), (sampleSkillDoc, (2:ℚ))]).take 5).map
        (fun p => mkResult p.1 p.2) ∧
     ((query (searchConst [(sampleSkillDoc, 1), (sampleSkillDoc, 2)]) "x" 5
        none none none ⟨[], []⟩).1.map (fun r => r.content)).Nodup ∧
     (∀ r ∈ (query (searchConst [(sampleSkillDoc, 1), (sampleSkillDoc, 2)]) "x" 5
        none none none ⟨[], []⟩).1,
      ∃ n, ∃ hn : n < ([(sampleSkillDoc, (1:ℚ)), (sampleSkillDoc, (2:ℚ))] :
          List (Document × ℚ)).length,
        r = mkResult (([(sampleSkillDoc, (1:ℚ)), (sampleSkillDoc, (2:ℚ))] :
            List (Document × ℚ)).get ⟨n, hn⟩).1
          (([(sampleSkillDoc, (1:ℚ)), (sampleSkillDoc, (2:ℚ))] :
            List (Document × ℚ)).get ⟨n, hn⟩).2 ∧
        ∀ m, ∀ hm : m < ([(sampleSkillDoc, (1:ℚ)), (sampleSkillDoc, (2:ℚ))] :
            List (Document × ℚ)).length, m < n →
          (([(sampleSkillDoc, (1:ℚ)), (sampleSkillDoc, (2:ℚ))] :
            List (Document × ℚ)).get ⟨m, hm⟩).1.page_content ≠ r.content)) :=
  ⟨⟨rfl, by simp⟩,
   C6_content_dedup (searchConst [(sampleSkillDoc, 1), (sampleSkillDoc, 2)]) "x" 5
     none none none ⟨[], []⟩ [(sampleSkillDoc, 1), (sampleSkillDoc, 2)] rfl (by simp)⟩

/-- C9 (counterexample): the `distance` field of a query result is *not*
the raw index distance: the source rounds it to 4 decimal places
(`round(distance, 4)`).  With a candidate at raw distance `1/3` the
reported distance is `0.3333 = 3333/10000 ≠ 1/3`. -/
theorem C9_distance_counterexample :
    (query (searchConst [(sampleSkillDoc, 1/3)]) "x" 5 none none none
        ⟨[], []⟩).1.map (fun r => r.distance) = [3333/10000] ∧
    ((3333 : ℚ)/10000) ≠ 1/3 := by
  constructor
  · have h : (query (searchConst [(sampleSkillDoc, 1/3)]) "x" 5 none none none
        ⟨[], []⟩).1 = [mkResult sampleSkillDoc (1/3)] := rfl
    rw [h]
    simp only [List.map_cons, List.map_nil, List.cons.injEq, and_true]
    show roundTo 4 (1/3) = 3333/10000
    norm_num [roundTo, roundHalfEven]
  · norm_num

/-- C9 (amended): each query result reports the raw index distance rounded
to 4 decimal places as `distance`, while `similarity_percent` is computed
from the raw, unrounded distance; content and metadata are taken from the
candidate document unmodified. -/
theorem C9_distance_rounded
    (search : String → Nat → List (String × String) → List (Document × ℚ))
    (query_text : String) (k : ℕ) (fs ft fuc : Option String) (s : RAGState) :
    ∀ r ∈ (query search query_text k fs ft fuc s).1,
      ∃ p ∈ search (expand_query query_text) (k * 2) (buildWhereFilter fs ft fuc),
        r.content = p.1.page_content ∧ r.metadata = p.1.metadata ∧
        r.distance = roundTo 4 p.2 ∧ r.similarity_percent = normalize_score p.2 := by
  intro r hr
  rw [query_fst_eq search query_text k fs ft fuc s _ rfl] at hr
  rcases queryLoop_mem k _ [] [] hr with h0 | ⟨p, hp, rfl⟩
  · exact absurd h0 (List.not_mem_nil r)
  · exact ⟨p, hp, rfl, rfl, rfl, rfl⟩

/-- Witness for C9 (amended) at a concrete one-candidate oracle. -/
theorem C9_distance_rounded_witness :
    mkResult sampleSkillDoc 1 ∈
      (query (searchConst [(sampleSkillDoc, 1)]) "x" 5 none none none
        ⟨[], []⟩).1 ∧
    (∃ p ∈ searchConst [(sampleSkillDoc, (1:ℚ))] (expand_query "x") (5 * 2)
        (buildWhereFilter none none none),
      (mkResult sampleSkillDoc 1).content = p.1.page_content ∧
      (mkResult sampleSkillDoc 1).metadata = p.1.metadata ∧
      (mkResult sampleSkillDoc 1).distance = roundTo 4 p.2 ∧
      (mkResult sampleSkillDoc 1).similarity_percent = normalize_score p.2) :=
  have hmem : mkResult sampleSkillDoc 1 ∈
      (query (searchConst [(sampleSkillDoc, 1)]) "x" 5 none none none
        ⟨[], []⟩).1 := List.mem_cons_self _ _
  ⟨hmem, C9_distance_rounded (searchConst [(sampleSkillDoc, 1)]) "x" 5
    none none none ⟨[], []⟩ (mkResult sampleSkillDoc 1) hmem⟩

/-- Helper: the exception reported by `ingest_skills`/`ingest_materials`
is the one the record walk raised. -/
theorem ingestRecords_snd (f : α → Except String Document) (items : List α)
    (s : RAGState) :
    (ingestRecords f items s).2 = (processItems f items s.indexed_ids).2.2 := by
  unfold ingestRecords
  rcases hp : processItems f items s.indexed_ids with ⟨docs, seen', err⟩
  cases err <;> rfl

/-- C1 (confirmed): ingestion is idempotent for all three sources.
Re-ingesting the same record batch in the same process is the identity on
the whole state (the Seen-ID set skips every candidate), and re-ingesting
in a fresh process (empty Seen-ID set over the persisted corpus) leaves
the corpus id set unchanged (the index's upsert-by-id absorbs the
recomputed batch).  The §8 scenario: ingesting the `COMP1000` record with
one learning outcome into an empty store yields exactly 2 documents (one
`description`, one `learning_outcome`), and re-ingesting it adds 0. -/
theorem C1_idempotent_ingestion :
    (∀ (units : List (String × UnitRecord)) (s : RAGState),
      ingest_units units (ingest_units units s) = ingest_units units s) ∧
    (∀ (units : List (String × UnitRecord)) (c : List Document) (x : String),
      x ∈ corpusIds (ingest_units units
        { indexed_ids := []
          corpus := (ingest_units units { indexed_ids := [], corpus := c }).corpus }).corpus ↔
      x ∈ corpusIds (ingest_units units { indexed_ids := [], corpus := c }).corpus) ∧
    (∀ (items : List SkillRecord) (s : RAGState),
      ingest_skills items (ingest_skills items s).1 = ingest_skills items s) ∧
    (∀ (items : List SkillRecord) (c : List Document) (x : String),
      x ∈ corpusIds (ingest_skills items
        { indexed_ids := []
          corpus := (ingest_skills items { indexed_ids := [], corpus := c }).1.corpus }).1.corpus ↔
      x ∈ corpusIds (ingest_skills items { indexed_ids := [], corpus := c }).1.corpus) ∧
    (∀ (items : List MaterialRecord) (s : RAGState),
      ingest_materials items (ingest_materials items s).1 = ingest_materials items s) ∧
    (∀ (items : List MaterialRecord) (c : List Document) (x : String),
      x ∈ corpusIds (ingest_materials items
        { indexed_ids := []
          corpus := (ingest_materials items { indexed_ids := [], corpus := c }).1.corpus }).1.corpus ↔
      x ∈ corpusIds (ingest_materials items { indexed_ids := [], corpus := c }).1.corpus) ∧
    ((ingest_units [("COMP1000", comp1000)] ⟨[], []⟩).corpus.length = 2 ∧
     (ingest_units [("COMP1000", comp1000)] ⟨[], []⟩).corpus.map
        (fun d => metaGetStr d.metadata "type") = ["description", "learning_outcome"] ∧
     (ingest_units [("COMP1000", comp1000)]
        (ingest_units [("COMP1000", comp1000)] ⟨[], []⟩)).corpus.length = 2) :=
  ⟨fun units s => ingestDocs_idem (units.flatMap (fun p => unitCandidates p.1 p.2)) s,
   fun units c x => ingestDocs_fresh_ids (units.flatMap (fun p => unitCandidates p.1 p.2)) c x,
   fun items s => ingestRecords_idem skillDoc items s,
   fun items c x => ingestRecords_fresh_ids skillDoc items c x,
   fun items s => ingestRecords_idem materialDoc items s,
   fun items c x => ingestRecords_fresh_ids materialDoc items c x,
   by decide, by decide, by decide⟩

/-- C8 (counterexample): a malformed record does *not* get skipped: the
`KeyError` aborts the whole ingestion call before the batch is submitted,
so the well-formed record in the same batch never reaches the index
(ingesting it alone does index it). -/
theorem C8_malformed_counterexample :
    (ingest_skills [badSkill, goodSkill] ⟨[], []⟩).2 = some "KeyError: skill" ∧
    (ingest_skills [badSkill, goodSkill] ⟨[], []⟩).1.corpus = [] ∧
    (∃ d, skillDoc goodSkill = Except.ok d) ∧
    (ingest_skills [goodSkill] ⟨[], []⟩).1.corpus.length = 1 :=
  ⟨by decide, by decide, ⟨_, rfl⟩, by decide⟩

/-- C8 (amended): a skill or material record missing a required field
aborts that ingestion call at that record: the call reports the exception
(and it does so exactly when some record of the batch is malformed), and
no document of the batch — malformed or well-formed — reaches the index:
the corpus is left exactly as it was (batch granularity, not record
granularity). -/
theorem C8_malformed_aborts_batch :
    (∀ (items : List SkillRecord) (s : RAGState),
      ((ingest_skills items s).2.isSome = true ↔
        ∃ it ∈ items, ∃ e, skillDoc it = Except.error e) ∧
      ((ingest_skills items s).2.isSome = true →
        (ingest_skills items s).1.corpus = s.corpus)) ∧
    (∀ (items : List MaterialRecord) (s : RAGState),
      ((ingest_materials items s).2.isSome = true ↔
        ∃ it ∈ items, ∃ e, materialDoc it = Except.error e) ∧
      ((ingest_materials items s).2.isSome = true →
        (ingest_materials items s).1.corpus = s.corpus)) := by
  constructor
  · intro items s
    constructor
    · unfold ingest_skills
      rw [ingestRecords_snd]
      exact processItems_error_iff skillDoc items s.indexed_ids
    · intro h
      exact ingestRecords_error_corpus skillDoc items s h
  · intro items s
    constructor
    · unfold ingest_materials
      rw [ingestRecords_snd]
      exact processItems_error_iff materialDoc items s.indexed_ids
    · intro h
      exact ingestRecords_error_corpus materialDoc items s h

/-- Witness for C8 (amended) on concrete malformed batches. -/
theorem C8_malformed_aborts_batch_witness :
    (ingest_skills [badSkill] ⟨[], []⟩).2.isSome = true ∧
    (ingest_skills [badSkill] ⟨[], []⟩).1.corpus = [] ∧
    (ingest_materials [badMaterial] ⟨[], []⟩).2.isSome = true ∧
    (ingest_materials [badMaterial] ⟨[], []⟩).1.corpus = [] :=
  ⟨by decide, (C8_malformed_aborts_batch.1 [badSkill] ⟨[], []⟩).2 (by decide),
   by decide, (C8_malformed_aborts_batch.2 [badMaterial] ⟨[], []⟩).2 (by decide)⟩

/-- C10 (confirmed): `query` is read-only — for every invocation, with any
oracle, arguments and state, it leaves both the Seen-ID set
(`indexed_ids`) and the indexed corpus unchanged; only the ingest
operations touch them. -/
theorem C10_query_readonly :
    ∀ (search : String → Nat → List (String × String) → List (Document × ℚ))
      (query_text : String) (k : ℕ) (fs ft fuc : Option String) (s : RAGState),
      (query search query_text k fs ft fuc s).2.indexed_ids = s.indexed_ids ∧
      (query search query_text k fs ft fuc s).2.corpus = s.corpus :=
  fun _ _ _ _ _ _ _ => ⟨rfl, rfl⟩

end RAG
